import Mathlib

/-!
# Verification of the probabilistic data-structure library

Shallow embedding of the three structures of the repository
(`bloomfilter.py`, `countminsketch.py`, `hyperloglog.py`) and proofs of the
specification's claims about them.

The cryptographic digest (SHA-256 / SHA-1) that seeds every hash lane is
treated as an uninterpreted function `H : α → ℕ → ℕ`, standing for
`int.from_bytes(sha256(bytes(item) + str(seed))[:4])` (resp. the 64-bit SHA-1
prefix).  Every property below is proved for an arbitrary such function, and
every counterexample instantiates it concretely; this matches the spec's
§4.2/§9 stance that the hash is a swappable dependency.

Python integers are unbounded, so counters are `ℤ` / `ℕ`; float arithmetic in
constructors is modelled over `ℚ` with the transcendental `math.log`
abstracted as a function `log : ℚ → ℚ` (each concrete float value is a
rational), and `math.e` as a rational constant parameter.  Python's
`ZeroDivisionError` on float division by zero is modelled by `pyDiv`.
-/

/-- The exception kinds the library can raise: `ValueError` for parameter
validation and dimension mismatch, `ZeroDivisionError` from float division. -/
inductive PyError where
  | valueError
  | zeroDivisionError
deriving DecidableEq, Repr

/-- Python float division: raises `ZeroDivisionError` on a zero denominator. -/
def pyDiv (a b : ℚ) : Except PyError ℚ :=
  if b = 0 then .error .zeroDivisionError else .ok (a / b)

/-! ## Bloom filter (`src/python/bloomfilter.py`) -/

/-- State of `BloomFilter`: derived sizes, the bit array (a list of 0/1
integers, as in the source), and the diagnostic counter. -/
structure BloomFilter where
  expected_items : ℤ
  false_positive_rate : ℚ
  size : ℕ
  num_hashes : ℕ
  bit_array : List ℕ
  items_added : ℕ
deriving DecidableEq, Repr

namespace BloomFilter

variable {α : Type}

/-- `BloomFilter._hash(item, seed)`: digest prefix reduced `% self.size`. -/
def hashOf (H : α → ℕ → ℕ) (bf : BloomFilter) (item : α) (seed : ℕ) : ℕ :=
  H item seed % bf.size

/-- `BloomFilter._get_positions(item)`: double hashing,
`(hash1 + i * hash2) % size` for `i = 0 .. num_hashes - 1`. -/
def get_positions (H : α → ℕ → ℕ) (bf : BloomFilter) (item : α) : List ℕ :=
  (List.range bf.num_hashes).map
    (fun i => (hashOf H bf item 0 + i * hashOf H bf item 1) % bf.size)

/-- `BloomFilter.add(item)`: set the bit at every position to 1 and bump the
diagnostic counter. -/
def add (H : α → ℕ → ℕ) (bf : BloomFilter) (item : α) : BloomFilter :=
  { bf with
    bit_array := (get_positions H bf item).foldl (fun arr pos => arr.set pos 1) bf.bit_array
    items_added := bf.items_added + 1 }

/-- `BloomFilter.contains(item)`: true iff all `k` bits are 1. -/
def contains (H : α → ℕ → ℕ) (bf : BloomFilter) (item : α) : Bool :=
  (get_positions H bf item).all (fun pos => bf.bit_array.getD pos 0 == 1)

/-- A sequence of `add` calls, in order. -/
def addAll (H : α → ℕ → ℕ) (bf : BloomFilter) (items : List α) : BloomFilter :=
  items.foldl (fun s it => s.add H it) bf

/-- `add` iterated `n` times on the same item. -/
def addTimes (H : α → ℕ → ℕ) (bf : BloomFilter) (item : α) : ℕ → BloomFilter
  | 0 => bf
  | n + 1 => (bf.addTimes H item n).add H item

/-- Well-formedness of a constructed filter: the bit array has length `size`
and `size` is positive (Python's `% self.size` would raise on `size = 0`). -/
def WF (bf : BloomFilter) : Prop :=
  bf.bit_array.length = bf.size ∧ 0 < bf.size

/-- `BloomFilter._optimal_size(n, p) = ceil(-(n * log p) / (log 2)^2)`.  The
float division raises `ZeroDivisionError` when the denominator is zero (it
never is for the real `math.log`). -/
def optimal_size (log : ℚ → ℚ) (n : ℤ) (p : ℚ) : Except PyError ℤ := do
  let q ← pyDiv (-(n * log p)) (log 2 ^ 2)
  .ok ⌈q⌉

/-- `BloomFilter._optimal_hash_count(m, n) = ceil((m / n) * log 2)`.  The
float division `m / n` raises `ZeroDivisionError` when `n = 0`. -/
def optimal_hash_count (log : ℚ → ℚ) (m n : ℤ) : Except PyError ℤ := do
  let q ← pyDiv (m : ℚ) (n : ℚ)
  .ok ⌈q * log 2⌉

/-- `BloomFilter.__init__(expected_items, false_positive_rate)`: validate only
the rate (`expected_items` is not validated), then derive the bit-array size
and hash count and allocate the zero bit array.  Negative derived values
behave as in Python (`[0] * size` is empty for `size <= 0`), hence `toNat`. -/
def init (log : ℚ → ℚ) (expected_items : ℤ) (false_positive_rate : ℚ) :
    Except PyError BloomFilter :=
  if ¬(0 < false_positive_rate ∧ false_positive_rate < 1) then .error .valueError
  else do
    let m ← optimal_size log expected_items false_positive_rate
    let k ← optimal_hash_count log m expected_items
    .ok ⟨expected_items, false_positive_rate, m.toNat, k.toNat,
      List.replicate m.toNat 0, 0⟩

/-- Modelled from the spec: `BloomFilter.merge` does not exist in
`src/python/bloomfilter.py` (no method, test or caller anywhere in the
repository); §2/§6 of the spec nevertheless list a `merge` "requiring
identical internal shape" for every structure, §5/§8 fix its action as bit-OR
of the bit arrays.  Following the two merges that do exist in the source, the
receiver keeps its own configuration; on 0/1 bit entries the bit-OR is the
pairwise `max`; the diagnostic counters add. -/
def mergedState (s o : BloomFilter) : BloomFilter :=
  { s with
    bit_array := (List.range s.size).map
      (fun i => max (s.bit_array.getD i 0) (o.bit_array.getD i 0))
    items_added := s.items_added + o.items_added }

/-- Modelled from the spec: the failure contract of the Bloom filter `merge`
(§6, §7): a dimension-mismatch error unless the internal shape is identical,
checked before any bit is touched, otherwise the bit-OR merge. -/
def merge (s o : BloomFilter) : Except PyError BloomFilter :=
  if s.size ≠ o.size ∨ s.num_hashes ≠ o.num_hashes then .error .valueError
  else .ok (s.mergedState o)

end BloomFilter

/-! ## Count-Min sketch (`src/python/countminsketch.py`) -/

/-- State of `CountMinSketch` (shared by the conservative variant, which
overrides only `add`): the error targets, the derived dimensions, the `d × w`
counter matrix and the running total. -/
structure CountMinSketch where
  epsilon : ℚ
  delta : ℚ
  width : ℕ
  depth : ℕ
  table : List (List ℤ)
  total_count : ℤ
deriving DecidableEq, Repr

namespace CountMinSketch

variable {α : Type}

/-- `CountMinSketch._hash(item, seed)`: digest prefix reduced `% self.width`;
row `i` uses seed `i`. -/
def col (H : α → ℕ → ℕ) (s : CountMinSketch) (item : α) (i : ℕ) : ℕ :=
  H item i % s.width

/-- Read `table[i][j]` (tables built by the constructor always have the cell;
the default is never consulted on well-formed states). -/
def cell (t : List (List ℤ)) (i j : ℕ) : ℤ :=
  (t.getD i []).getD j 0

/-- `self.table[i][j] += c` as a pure update. -/
def bump (t : List (List ℤ)) (i j : ℕ) (c : ℤ) : List (List ℤ) :=
  t.set i ((t.getD i []).set j (cell t i j + c))

/-- `CountMinSketch.add(item, count)`: increment `table[i][hash_i(item)]` for
every row `i`, then add `count` to `total_count`.  The source accepts any
integer `count`, zero and negative included. -/
def add (H : α → ℕ → ℕ) (s : CountMinSketch) (item : α) (count : ℤ) : CountMinSketch :=
  { s with
    table := (List.range s.depth).foldl (fun t i => bump t i (col H s item i) count) s.table
    total_count := s.total_count + count }

/-- `CountMinSketch.estimate(item)`: the minimum of the row counters.  Python's
`min` raises on an empty list, hence the `Option` (it is `some` whenever
`depth > 0`). -/
def estimate (H : α → ℕ → ℕ) (s : CountMinSketch) (item : α) : Option ℤ :=
  ((List.range s.depth).map (fun i => cell s.table i (col H s item i))).min?

/-- A sequence of standard `add(item, count)` calls, in order. -/
def addSeq (H : α → ℕ → ℕ) (s : CountMinSketch) (ops : List (α × ℤ)) : CountMinSketch :=
  ops.foldl (fun t op => t.add H op.1 op.2) s

/-- `ConservativeCountMinSketch.add(item, count)`: read the row counters of
the item, compute their minimum, and increment only the counters equal to
that minimum; `total_count` grows by `count` as in the standard variant.
(Python's `min` would raise on `depth = 0`; the `getD 0` is never consulted
for the constructible sketches, whose depth is positive.) -/
def conservativeAdd (H : α → ℕ → ℕ) (s : CountMinSketch) (item : α) (count : ℤ) :
    CountMinSketch :=
  let counts := (List.range s.depth).map (fun i => cell s.table i (col H s item i))
  let min_count := counts.min?.getD 0
  { s with
    table := (List.range s.depth).foldl
      (fun t i =>
        if counts.getD i 0 = min_count then bump t i (col H s item i) count else t)
      s.table
    total_count := s.total_count + count }

/-- A sequence of conservative `add(item, count)` calls, in order. -/
def conservativeAddSeq (H : α → ℕ → ℕ) (s : CountMinSketch) (ops : List (α × ℤ)) :
    CountMinSketch :=
  ops.foldl (fun t op => conservativeAdd H t op.1 op.2) s

/-- `[[0] * width for _ in range(depth)]`: the table of a fresh sketch. -/
def zeroTable (d w : ℕ) : List (List ℤ) :=
  List.replicate d (List.replicate w 0)

/-- A freshly constructed sketch of the given dimensions: all-zero table and
zero running total, exactly the state `__init__` leaves behind. -/
def fresh (epsilon delta : ℚ) (w d : ℕ) : CountMinSketch :=
  ⟨epsilon, delta, w, d, zeroTable d w, 0⟩

/-- The sum of the counts the operation sequence adds for one item. -/
def countFor [DecidableEq α] (item : α) (ops : List (α × ℤ)) : ℤ :=
  ((ops.filter (fun op => op.1 = item)).map (fun op => op.2)).sum

/-- Well-formedness of a sketch state as `__init__` produces it: a
`depth × width` table with positive dimensions. -/
def WF (s : CountMinSketch) : Prop :=
  s.table.length = s.depth ∧
    (∀ i, i < s.depth → (s.table.getD i []).length = s.width) ∧
    0 < s.width ∧ 0 < s.depth

/-- The successful branch of `CountMinSketch.merge`: pairwise counter sums and
summed totals; the receiver keeps its own parameters.  On the `depth × width`
tables the constructor builds, this is exactly the in-place
`self.table[i][j] += other.table[i][j]` double loop. -/
def mergedState (s o : CountMinSketch) : CountMinSketch :=
  { s with
    table := (List.range s.depth).map
      (fun i => (List.range s.width).map (fun j => cell s.table i j + cell o.table i j))
    total_count := s.total_count + o.total_count }

/-- `CountMinSketch.merge(other)`: raise `ValueError` unless widths and depths
agree (checked before any counter is touched), else sum pairwise. -/
def merge (s o : CountMinSketch) : Except PyError CountMinSketch :=
  if s.width ≠ o.width ∨ s.depth ≠ o.depth then .error .valueError
  else .ok (mergedState s o)

/-- The state of the receiver after a `merge` call under Python exception
semantics: the merged state on success, the original state when the call
raised. -/
def mergePost (s o : CountMinSketch) : CountMinSketch :=
  match merge s o with
  | .ok t => t
  | .error _ => s

/-- `CountMinSketch.__init__(epsilon, delta)`: validate both targets, then
derive `width = ceil(e/epsilon)` and `depth = ceil(ln(1/delta))`.  `math.e`
and `math.log` are abstracted (`e`, `log`); the divisions cannot raise once
validation passed, since `epsilon > 0` and `delta > 0`. -/
def init (log : ℚ → ℚ) (e : ℚ) (epsilon delta : ℚ) : Except PyError CountMinSketch :=
  if ¬(0 < epsilon ∧ epsilon < 1) then .error .valueError
  else if ¬(0 < delta ∧ delta < 1) then .error .valueError
  else
    let width : ℤ := ⌈e / epsilon⌉
    let depth : ℤ := ⌈log (1 / delta)⌉
    .ok ⟨epsilon, delta, width.toNat, depth.toNat,
      zeroTable depth.toNat width.toNat, 0⟩

end CountMinSketch

/-! ## HyperLogLog (`src/python/hyperloglog.py`) -/

/-- State of `HyperLogLog`: the precision, the register count `m = 2^p`, the
registers and the bias-correction constant `alpha` (a rational in the
source's piecewise table). -/
structure HyperLogLog where
  precision : ℕ
  m : ℕ
  registers : List ℕ
  alpha : ℚ
deriving DecidableEq, Repr

namespace HyperLogLog

/-- The piecewise `alpha` table of `HyperLogLog.__init__`. -/
def alphaOf (m : ℕ) : ℚ :=
  if m ≥ 128 then (7213 / 10000) / (1 + (1079 / 1000) / m)
  else if m ≥ 64 then 709 / 1000
  else if m ≥ 32 then 697 / 1000
  else if m ≥ 16 then 673 / 1000
  else 1 / 2

/-- `HyperLogLog.__init__(precision)`: validate `4 <= precision <= 16`, then
allocate `m = 2^precision` zero registers and fix `alpha`. -/
def init (precision : ℤ) : Except PyError HyperLogLog :=
  if ¬(4 ≤ precision ∧ precision ≤ 16) then .error .valueError
  else
    let m : ℕ := 2 ^ precision.toNat
    .ok ⟨precision.toNat, m, List.replicate m 0, alphaOf m⟩

/-- The raw harmonic-mean estimate
`E = alpha * m^2 / sum(2 ** (-x) for x in registers)` of `count()` (exact
rational arithmetic; the denominator is positive whenever `m > 0`). -/
def rawEstimate (h : HyperLogLog) : ℚ :=
  h.alpha * (h.m : ℚ) ^ 2 /
    (h.registers.map (fun (x : ℕ) => (2 : ℚ) ^ (-(x : ℤ)))).sum

/-- The value `count()` returns, kept symbolic where it is transcendental:
`linear m zeros` stands for `m * ln(m / zeros)`, `raw E` for `E` itself, and
`large E` for `-2^32 * ln(1 - E / 2^32)`. -/
inductive CountResult where
  | linear (m zeros : ℕ)
  | raw (e : ℚ)
  | large (e : ℚ)
deriving DecidableEq, Repr

/-- `HyperLogLog.count()`: small-range linear counting when
`E <= 2.5 * m` and some register is zero; otherwise the raw estimate when
`E <= (1/30) * 2^32`; otherwise the large-range correction.  The duplicated
tail mirrors the source's fall-through when `zeros == 0`. -/
def count (h : HyperLogLog) : CountResult :=
  let raw_estimate := h.rawEstimate
  if raw_estimate ≤ 5 / 2 * (h.m : ℚ) then
    let zeros := h.registers.count 0
    if zeros ≠ 0 then .linear h.m zeros
    else if raw_estimate ≤ 1 / 30 * 2 ^ 32 then .raw raw_estimate
    else .large raw_estimate
  else if raw_estimate ≤ 1 / 30 * 2 ^ 32 then .raw raw_estimate
  else .large raw_estimate

/-- The successful branch of `HyperLogLog.merge`: pairwise register maxima;
on the length-`m` register lists the constructor builds, this is exactly the
in-place `self.registers[i] = max(self.registers[i], other.registers[i])`
loop. -/
def mergedState (s o : HyperLogLog) : HyperLogLog :=
  { s with
    registers := (List.range s.m).map
      (fun i => max (s.registers.getD i 0) (o.registers.getD i 0)) }

/-- `HyperLogLog.merge(other)`: raise `ValueError` unless precisions agree
(checked before any register is touched), else take pairwise maxima. -/
def merge (s o : HyperLogLog) : Except PyError HyperLogLog :=
  if s.precision ≠ o.precision then .error .valueError
  else .ok (mergedState s o)

/-- The state of the receiver after a `merge` call under Python exception
semantics. -/
def mergePost (s o : HyperLogLog) : HyperLogLog :=
  match merge s o with
  | .ok t => t
  | .error _ => s

end HyperLogLog

/-! ## List toolkit -/

theorem getD_set_of_ne {β : Type} (l : List β) {i j : ℕ} (h : i ≠ j) (a d : β) :
    (l.set i a).getD j d = l.getD j d := by
  simp [List.getD, List.getElem?_set_ne h]

theorem getD_set_self {β : Type} (l : List β) {i : ℕ} (h : i < l.length) (a d : β) :
    (l.set i a).getD i d = a := by
  simp [List.getD, List.getElem?_set_self, h]

theorem getD_map_range {β : Type} (f : ℕ → β) {n i : ℕ} (h : i < n) (d : β) :
    ((List.range n).map f).getD i d = f i := by
  simp [List.getD, List.getElem?_map, List.getElem?_range h]

theorem getD_map_range_of_le {β : Type} (f : ℕ → β) {n i : ℕ} (h : n ≤ i) (d : β) :
    ((List.range n).map f).getD i d = d := by
  have : ((List.range n).map f).length ≤ i := by simpa using h
  simp [List.getD, List.getElem?_eq_none this]

theorem min?_spec {l : List ℤ} (h : l ≠ []) :
    ∃ v, l.min? = some v ∧ v ∈ l ∧ ∀ b ∈ l, v ≤ b := by
  induction l with
  | nil => exact absurd rfl h
  | cons a as ih =>
    cases as with
    | nil => exact ⟨a, by simp [List.min?], by simp, by simp⟩
    | cons b bs =>
      obtain ⟨v, hv, hmem, hle⟩ := ih (by simp)
      refine ⟨min a v, ?_, ?_, ?_⟩
      · rw [List.min?_cons, hv]; rfl
      · rcases min_choice a v with h1 | h1 <;> rw [h1]
        · simp
        · simp only [List.mem_cons] at hmem ⊢; tauto
      · intro c hc
        rcases List.mem_cons.1 hc with rfl | hc
        · exact min_le_left ..
        · exact le_trans (min_le_right ..) (hle c hc)

/-! ## Bloom filter lemmas -/

namespace BloomFilter

variable {α : Type}

/-- Setting a bit to 1 never turns a 1 into something else. -/
theorem getD_set_one (l : List ℕ) (p q : ℕ) (h : l.getD p 0 = 1) :
    (l.set q 1).getD p 0 = 1 := by
  by_cases hpq : q = p
  · subst hpq
    by_cases hq : q < l.length
    · rw [getD_set_self l hq]
    · rw [List.set_eq_of_length_le (le_of_not_lt hq)]; exact h
  · rw [getD_set_of_ne l hpq]; exact h

/-- Setting a bit that is already 1 (or out of range) changes nothing. -/
theorem set_one_eq_self {l : List ℕ} {p : ℕ} (h : p < l.length → l.getD p 0 = 1) :
    l.set p 1 = l := by
  induction l generalizing p with
  | nil => rfl
  | cons a as ih =>
    cases p with
    | zero => simpa [List.set, List.getD] using (h (by simp)).symm
    | succ p =>
      simp only [List.set]
      have := ih (p := p) (fun hp => by
        simpa [List.getD] using h (by simpa using Nat.succ_lt_succ hp))
      rw [this]

theorem foldl_set_length (ps : List ℕ) (l : List ℕ) :
    (ps.foldl (fun arr pos => arr.set pos 1) l).length = l.length := by
  induction ps generalizing l with
  | nil => rfl
  | cons q qs ih => simp only [List.foldl_cons]; rw [ih, List.length_set]

theorem foldl_set_mono (ps : List ℕ) (l : List ℕ) (p : ℕ) (h : l.getD p 0 = 1) :
    (ps.foldl (fun arr pos => arr.set pos 1) l).getD p 0 = 1 := by
  induction ps generalizing l with
  | nil => exact h
  | cons q qs ih => exact ih _ (getD_set_one l p q h)

theorem foldl_set_sets (ps : List ℕ) (l : List ℕ) (p : ℕ) (hp : p ∈ ps)
    (hlen : p < l.length) :
    (ps.foldl (fun arr pos => arr.set pos 1) l).getD p 0 = 1 := by
  induction ps generalizing l with
  | nil => cases hp
  | cons q qs ih =>
    simp only [List.foldl_cons]
    rcases List.mem_cons.1 hp with rfl | hp
    · exact foldl_set_mono qs _ p (getD_set_self l hlen 1 0)
    · exact ih _ hp (by rw [List.length_set]; exact hlen)

theorem foldl_set_eq_self (ps : List ℕ) (l : List ℕ)
    (h : ∀ p ∈ ps, p < l.length → l.getD p 0 = 1) :
    ps.foldl (fun arr pos => arr.set pos 1) l = l := by
  induction ps generalizing l with
  | nil => rfl
  | cons q qs ih =>
    simp only [List.foldl_cons]
    rw [set_one_eq_self (h q (by simp)),
      ih l (fun p hp => h p (List.mem_cons_of_mem q hp))]

/-- Re-running the bit-setting pass of `add` is a no-op on the bit array. -/
theorem foldl_set_idem (ps : List ℕ) (l : List ℕ) :
    ps.foldl (fun arr pos => arr.set pos 1)
      (ps.foldl (fun arr pos => arr.set pos 1) l) =
      ps.foldl (fun arr pos => arr.set pos 1) l := by
  refine foldl_set_eq_self ps _ (fun p hp hlen => ?_)
  exact foldl_set_sets ps l p hp (by rwa [foldl_set_length] at hlen)

@[simp] theorem add_size (H : α → ℕ → ℕ) (bf : BloomFilter) (item : α) :
    (bf.add H item).size = bf.size := rfl

@[simp] theorem add_num_hashes (H : α → ℕ → ℕ) (bf : BloomFilter) (item : α) :
    (bf.add H item).num_hashes = bf.num_hashes := rfl

theorem add_bit_length (H : α → ℕ → ℕ) (bf : BloomFilter) (item : α) :
    (bf.add H item).bit_array.length = bf.bit_array.length :=
  foldl_set_length ..

theorem get_positions_add (H : α → ℕ → ℕ) (bf : BloomFilter) (it item : α) :
    get_positions H (bf.add H it) item = get_positions H bf item := rfl

@[simp] theorem addAll_size (H : α → ℕ → ℕ) (bf : BloomFilter) (items : List α) :
    (bf.addAll H items).size = bf.size := by
  induction items generalizing bf with
  | nil => rfl
  | cons it its ih => exact (ih (bf.add H it)).trans rfl

@[simp] theorem addAll_num_hashes (H : α → ℕ → ℕ) (bf : BloomFilter) (items : List α) :
    (bf.addAll H items).num_hashes = bf.num_hashes := by
  induction items generalizing bf with
  | nil => rfl
  | cons it its ih => exact (ih (bf.add H it)).trans rfl

theorem addAll_bit_length (H : α → ℕ → ℕ) (bf : BloomFilter) (items : List α) :
    (bf.addAll H items).bit_array.length = bf.bit_array.length := by
  induction items generalizing bf with
  | nil => rfl
  | cons it its ih => exact (ih (bf.add H it)).trans (add_bit_length ..)

theorem get_positions_addAll (H : α → ℕ → ℕ) (bf : BloomFilter) (items : List α)
    (item : α) : get_positions H (bf.addAll H items) item = get_positions H bf item := by
  unfold get_positions hashOf
  rw [addAll_size, addAll_num_hashes]

/-- Bits already set survive any later sequence of `add` calls. -/
theorem addAll_bit_mono (H : α → ℕ → ℕ) (bf : BloomFilter) (items : List α) (p : ℕ)
    (h : bf.bit_array.getD p 0 = 1) : (bf.addAll H items).bit_array.getD p 0 = 1 := by
  induction items generalizing bf with
  | nil => exact h
  | cons it its ih => exact ih (bf.add H it) (foldl_set_mono _ _ _ h)

/-- Every hash position of an item is in range once `size` is positive. -/
theorem get_positions_lt (H : α → ℕ → ℕ) (bf : BloomFilter) (item : α)
    (hsz : 0 < bf.size) : ∀ p ∈ get_positions H bf item, p < bf.size := by
  intro p hp
  simp only [get_positions, List.mem_map, List.mem_range] at hp
  obtain ⟨i, _, rfl⟩ := hp
  exact Nat.mod_lt _ hsz

/-- Positions depend only on the immutable `size` and `num_hashes` fields. -/
theorem get_positions_congr (H : α → ℕ → ℕ) {s bf : BloomFilter}
    (hsz : s.size = bf.size) (hnh : s.num_hashes = bf.num_hashes) (item : α) :
    get_positions H s item = get_positions H bf item := by
  unfold get_positions hashOf
  rw [hsz, hnh]

@[simp] theorem addTimes_size (H : α → ℕ → ℕ) (bf : BloomFilter) (item : α) (n : ℕ) :
    (bf.addTimes H item n).size = bf.size := by
  induction n with
  | zero => rfl
  | succ n ih => simpa [addTimes] using ih

@[simp] theorem addTimes_num_hashes (H : α → ℕ → ℕ) (bf : BloomFilter) (item : α)
    (n : ℕ) : (bf.addTimes H item n).num_hashes = bf.num_hashes := by
  induction n with
  | zero => rfl
  | succ n ih => simpa [addTimes] using ih

theorem addTimes_items_added (H : α → ℕ → ℕ) (bf : BloomFilter) (item : α) (n : ℕ) :
    (bf.addTimes H item n).items_added = bf.items_added + n := by
  induction n with
  | zero => rfl
  | succ n ih => simp only [addTimes, add, ih]; omega

end BloomFilter

/-- C2: for every Bloom filter in a valid configuration (bit array of length
`size > 0`), any item, and any other `add` calls made before or after,
`contains(item)` returns `true` once `add(item)` has been called. -/
theorem bloom_no_false_negatives {α : Type} (H : α → ℕ → ℕ) (bf : BloomFilter)
    (item : α) (pre post : List α) (hwf : bf.WF) :
    (((bf.addAll H pre).add H item).addAll H post).contains H item = true := by
  obtain ⟨hlen, hsz⟩ := hwf
  set s1 := bf.addAll H pre with hs1
  have hs1sz : s1.size = bf.size := BloomFilter.addAll_size ..
  have hs1len : s1.bit_array.length = bf.size :=
    (BloomFilter.addAll_bit_length ..).trans hlen
  rw [BloomFilter.contains, List.all_eq_true]
  intro p hp
  rw [BloomFilter.get_positions_addAll, BloomFilter.get_positions_add] at hp
  have hp1 : p ∈ BloomFilter.get_positions H s1 item := hp
  have hplt : p < bf.size := by
    have := BloomFilter.get_positions_lt H s1 item (hs1sz ▸ hsz) p hp1
    rwa [hs1sz] at this
  have hset : (s1.add H item).bit_array.getD p 0 = 1 :=
    BloomFilter.foldl_set_sets _ _ p hp1 (by rw [hs1len]; exact hplt)
  have hfinal := BloomFilter.addAll_bit_mono H (s1.add H item) post p hset
  simpa using hfinal

/-- Closed witness for `bloom_no_false_negatives` at a concrete filter,
hash function and surrounding `add` calls. -/
theorem bloom_no_false_negatives_witness :
    (⟨0, 0, 2, 2, [0, 0], 0⟩ : BloomFilter).WF ∧
      ((((⟨0, 0, 2, 2, [0, 0], 0⟩ : BloomFilter).addAll (fun a s => a + s) [7]).add
          (fun a s => a + s) 1).addAll (fun a s => a + s) [5]).contains
        (fun a s => a + s) 1 = true :=
  ⟨⟨by decide, by decide⟩,
    bloom_no_false_negatives (fun a s => a + s) ⟨0, 0, 2, 2, [0, 0], 0⟩ 1 [7] [5]
      ⟨by decide, by decide⟩⟩

/-- C9: calling `add(item)` `n ≥ 1` times yields the same bit array as calling
it once from the same starting state; only the diagnostic `items_added`
counter differs, growing by `n` instead of `1`. -/
theorem bloom_add_idempotent_bits {α : Type} (H : α → ℕ → ℕ) (bf : BloomFilter)
    (item : α) (n : ℕ) (hn : 1 ≤ n) :
    (bf.addTimes H item n).bit_array = (bf.add H item).bit_array ∧
      (bf.addTimes H item n).items_added = bf.items_added + n ∧
      (bf.add H item).items_added = bf.items_added + 1 := by
  refine ⟨?_, BloomFilter.addTimes_items_added .., rfl⟩
  induction n with
  | zero => cases hn
  | succ n ih =>
    cases Nat.eq_zero_or_pos n with
    | inl h0 => subst h0; rfl
    | inr hpos =>
      have hbits := ih hpos
      show ((bf.addTimes H item n).add H item).bit_array = _
      rw [BloomFilter.add]
      simp only
      rw [BloomFilter.get_positions_congr H (BloomFilter.addTimes_size ..)
        (BloomFilter.addTimes_num_hashes ..) item, hbits, BloomFilter.add]
      simp only
      exact BloomFilter.foldl_set_idem ..

/-- C3: the (spec-modelled) Bloom filter merge requires identical shape, and
on identically shaped filters it is commutative on the spec's state
(`size`, `numHashes`, `bits`, `itemsAdded`) and associative. -/
theorem bloom_merge_comm_assoc (A B C : BloomFilter)
    (hsAB : A.size = B.size) (hnAB : A.num_hashes = B.num_hashes)
    (hsBC : B.size = C.size) (hnBC : B.num_hashes = C.num_hashes) :
    A.merge B = .ok (A.mergedState B) ∧
      (A.mergedState B).size = (B.mergedState A).size ∧
      (A.mergedState B).num_hashes = (B.mergedState A).num_hashes ∧
      (A.mergedState B).bit_array = (B.mergedState A).bit_array ∧
      (A.mergedState B).items_added = (B.mergedState A).items_added ∧
      (A.mergedState B).mergedState C = A.mergedState (B.mergedState C) := by
  refine ⟨?_, ?_, ?_, ?_, ?_, ?_⟩
  · simp [BloomFilter.merge, hsAB, hnAB]
  · show A.size = B.size; exact hsAB
  · show A.num_hashes = B.num_hashes; exact hnAB
  · show (List.range A.size).map _ = (List.range B.size).map _
    rw [← hsAB]
    exact List.map_congr_left (fun i _ => max_comm ..)
  · show A.items_added + B.items_added = B.items_added + A.items_added
    exact Nat.add_comm ..
  · show ({ A with
        bit_array := (List.range A.size).map _
        items_added := A.items_added + B.items_added + C.items_added } : BloomFilter) =
      { A with
        bit_array := (List.range A.size).map _
        items_added := A.items_added + (B.items_added + C.items_added) }
    have hbits : ((List.range A.size).map (fun i =>
        max ((A.mergedState B).bit_array.getD i 0) (C.bit_array.getD i 0))) =
        (List.range A.size).map (fun i =>
          max (A.bit_array.getD i 0) ((B.mergedState C).bit_array.getD i 0)) := by
      refine List.map_congr_left (fun i hi => ?_)
      have hiA : i < A.size := List.mem_range.1 hi
      have h1 : (A.mergedState B).bit_array.getD i 0 =
          max (A.bit_array.getD i 0) (B.bit_array.getD i 0) :=
        getD_map_range _ hiA 0
      have h2 : (B.mergedState C).bit_array.getD i 0 =
          max (B.bit_array.getD i 0) (C.bit_array.getD i 0) :=
        getD_map_range _ (hsAB ▸ hiA) 0
      rw [h1, h2, max_assoc]
    simp only [BloomFilter.mk.injEq, hbits, Nat.add_assoc, and_self, true_and]

/-- Closed witness for `bloom_merge_comm_assoc` on three concrete filters of
identical shape. -/
theorem bloom_merge_comm_assoc_witness :
    ((⟨0, 0, 2, 1, [1, 0], 1⟩ : BloomFilter).mergedState
        ⟨0, 0, 2, 1, [0, 1], 2⟩).bit_array =
      ((⟨0, 0, 2, 1, [0, 1], 2⟩ : BloomFilter).mergedState
        ⟨0, 0, 2, 1, [1, 0], 1⟩).bit_array :=
  (bloom_merge_comm_assoc ⟨0, 0, 2, 1, [1, 0], 1⟩ ⟨0, 0, 2, 1, [0, 1], 2⟩
    ⟨0, 0, 2, 1, [1, 1], 0⟩ rfl rfl rfl rfl).2.2.2.1

/-- Closed witness for `bloom_add_idempotent_bits` with three re-adds of the
same item. -/
theorem bloom_add_idempotent_bits_witness :
    1 ≤ 3 ∧
      (((⟨0, 0, 3, 2, [0, 0, 0], 0⟩ : BloomFilter).addTimes (fun a s => a + s) 1
          3).bit_array =
        ((⟨0, 0, 3, 2, [0, 0, 0], 0⟩ : BloomFilter).add (fun a s => a + s) 1).bit_array) :=
  ⟨by decide,
    (bloom_add_idempotent_bits (fun a s => a + s) ⟨0, 0, 3, 2, [0, 0, 0], 0⟩ 1 3
      (by decide)).1⟩

/-! ## Count-Min sketch lemmas -/

namespace CountMinSketch

variable {α : Type}

theorem bump_length (t : List (List ℤ)) (i j : ℕ) (c : ℤ) :
    (bump t i j c).length = t.length := List.length_set ..

theorem bump_row_length (t : List (List ℤ)) (r q : ℕ) (c : ℤ) (i : ℕ) :
    ((bump t r q c).getD i []).length = (t.getD i []).length := by
  by_cases hri : r = i
  · subst hri
    by_cases hr : r < t.length
    · rw [bump, getD_set_self t hr, List.length_set]
    · rw [bump, List.set_eq_of_length_le (le_of_not_lt hr)]
  · rw [bump, getD_set_of_ne t hri]

theorem cell_bump_self (t : List (List ℤ)) (i j : ℕ) (c : ℤ) (hi : i < t.length)
    (hj : j < (t.getD i []).length) :
    cell (bump t i j c) i j = cell t i j + c := by
  rw [bump, cell, getD_set_self t hi, getD_set_self _ hj]

theorem cell_bump_ne (t : List (List ℤ)) (i j : ℕ) (c : ℤ) (i' j' : ℕ)
    (h : i ≠ i' ∨ j ≠ j') :
    cell (bump t i j c) i' j' = cell t i' j' := by
  by_cases hii : i = i'
  · subst hii
    have hjj : j ≠ j' := h.resolve_left (fun hh => hh rfl)
    by_cases hi : i < t.length
    · rw [bump, cell, getD_set_self t hi, getD_set_of_ne _ hjj, cell]
    · rw [bump, List.set_eq_of_length_le (le_of_not_lt hi)]
  · rw [bump, cell, getD_set_of_ne t hii, cell]

theorem cell_bump_out (t : List (List ℤ)) (i j : ℕ) (c : ℤ)
    (h : ¬(i < t.length ∧ j < (t.getD i []).length)) :
    cell (bump t i j c) i j = cell t i j := by
  by_cases hi : i < t.length
  · have hj : ¬ j < (t.getD i []).length := fun hj => h ⟨hi, hj⟩
    rw [bump, cell, getD_set_self t hi, List.set_eq_of_length_le (le_of_not_lt hj), cell]
  · rw [bump, List.set_eq_of_length_le (le_of_not_lt hi)]

theorem cell_bump_mono (t : List (List ℤ)) (i j : ℕ) (c : ℤ) (hc : 0 ≤ c)
    (i' j' : ℕ) : cell t i' j' ≤ cell (bump t i j c) i' j' := by
  by_cases hii : i = i'
  · subst hii
    by_cases hjj : j = j'
    · subst hjj
      by_cases hin : i < t.length ∧ j < (t.getD i []).length
      · rw [cell_bump_self t i j c hin.1 hin.2]; exact le_add_of_nonneg_right hc
      · rw [cell_bump_out t i j c hin]
    · rw [cell_bump_ne t i j c i j' (Or.inr hjj)]
  · rw [cell_bump_ne t i j c i' j' (Or.inl hii)]

theorem addfold_length (colf : ℕ → ℕ) (c : ℤ) (rows : List ℕ) (t : List (List ℤ)) :
    (rows.foldl (fun u r => bump u r (colf r) c) t).length = t.length := by
  induction rows generalizing t with
  | nil => rfl
  | cons r rs ih => simp only [List.foldl_cons]; rw [ih, bump_length]

theorem addfold_row_length (colf : ℕ → ℕ) (c : ℤ) (rows : List ℕ)
    (t : List (List ℤ)) (i : ℕ) :
    ((rows.foldl (fun u r => bump u r (colf r) c) t).getD i []).length =
      (t.getD i []).length := by
  induction rows generalizing t with
  | nil => rfl
  | cons r rs ih => simp only [List.foldl_cons]; rw [ih, bump_row_length]

theorem cell_addfold_not_mem (colf : ℕ → ℕ) (c : ℤ) (rows : List ℕ)
    (t : List (List ℤ)) (i j : ℕ) (hi : i ∉ rows) :
    cell (rows.foldl (fun u r => bump u r (colf r) c) t) i j = cell t i j := by
  induction rows generalizing t with
  | nil => rfl
  | cons r rs ih =>
    simp only [List.foldl_cons]
    rw [ih _ (fun h => hi (List.mem_cons_of_mem r h)),
      cell_bump_ne _ _ _ _ _ _
        (Or.inl (fun h => hi (by rw [← h]; exact List.mem_cons_self r rs)))]

theorem cell_addfold_mem (colf : ℕ → ℕ) (c : ℤ) (rows : List ℕ)
    (hnd : rows.Nodup) (t : List (List ℤ)) (i : ℕ) (hi : i ∈ rows)
    (hlen : i < t.length) (hrow : colf i < (t.getD i []).length) (j : ℕ) :
    cell (rows.foldl (fun u r => bump u r (colf r) c) t) i j =
      cell t i j + (if j = colf i then c else 0) := by
  induction rows generalizing t with
  | nil => cases hi
  | cons r rs ih =>
    simp only [List.foldl_cons]
    rcases List.mem_cons.1 hi with rfl | hmem
    · have hnotin : i ∉ rs := (List.nodup_cons.1 hnd).1
      rw [cell_addfold_not_mem _ _ _ _ _ _ hnotin]
      by_cases hj : j = colf i
      · subst hj; rw [cell_bump_self _ _ _ _ hlen hrow, if_pos rfl]
      · rw [cell_bump_ne _ _ _ _ _ _ (Or.inr (fun hh => hj hh.symm)), if_neg hj,
          add_zero]
    · have hir : r ≠ i := by rintro rfl; exact (List.nodup_cons.1 hnd).1 hmem
      rw [ih (List.nodup_cons.1 hnd).2 _ hmem (by rw [bump_length]; exact hlen)
          (by rw [bump_row_length]; exact hrow),
        cell_bump_ne _ _ _ _ _ _ (Or.inl hir)]

theorem cell_addfold_mono (colf : ℕ → ℕ) (c : ℤ) (rows : List ℕ)
    (t : List (List ℤ)) (hc : 0 ≤ c) (i j : ℕ) :
    cell t i j ≤ cell (rows.foldl (fun u r => bump u r (colf r) c) t) i j := by
  induction rows generalizing t with
  | nil => exact le_refl _
  | cons r rs ih =>
    simp only [List.foldl_cons]
    exact le_trans (cell_bump_mono t r (colf r) c hc i j) (ih _)

end CountMinSketch

namespace CountMinSketch

variable {α : Type}

theorem cfold_length (counts : List ℤ) (m0 : ℤ) (colf : ℕ → ℕ) (c : ℤ)
    (rows : List ℕ) (t : List (List ℤ)) :
    (rows.foldl (fun u r => if counts.getD r 0 = m0 then bump u r (colf r) c else u)
      t).length = t.length := by
  induction rows generalizing t with
  | nil => rfl
  | cons r rs ih =>
    simp only [List.foldl_cons]
    rw [ih]
    by_cases h : counts.getD r 0 = m0
    · rw [if_pos h, bump_length]
    · rw [if_neg h]

theorem cfold_row_length (counts : List ℤ) (m0 : ℤ) (colf : ℕ → ℕ) (c : ℤ)
    (rows : List ℕ) (t : List (List ℤ)) (i : ℕ) :
    ((rows.foldl (fun u r => if counts.getD r 0 = m0 then bump u r (colf r) c else u)
      t).getD i []).length = (t.getD i []).length := by
  induction rows generalizing t with
  | nil => rfl
  | cons r rs ih =>
    simp only [List.foldl_cons]
    rw [ih]
    by_cases h : counts.getD r 0 = m0
    · rw [if_pos h, bump_row_length]
    · rw [if_neg h]

theorem cell_cfold_not_mem (counts : List ℤ) (m0 : ℤ) (colf : ℕ → ℕ) (c : ℤ)
    (rows : List ℕ) (t : List (List ℤ)) (i j : ℕ) (hi : i ∉ rows) :
    cell (rows.foldl
      (fun u r => if counts.getD r 0 = m0 then bump u r (colf r) c else u) t) i j =
      cell t i j := by
  induction rows generalizing t with
  | nil => rfl
  | cons r rs ih =>
    simp only [List.foldl_cons]
    rw [ih _ (fun h => hi (List.mem_cons_of_mem r h))]
    by_cases h : counts.getD r 0 = m0
    · rw [if_pos h, cell_bump_ne _ _ _ _ _ _
        (Or.inl (fun h1 => hi (by rw [← h1]; exact List.mem_cons_self r rs)))]
    · rw [if_neg h]

theorem cell_cfold_mem (counts : List ℤ) (m0 : ℤ) (colf : ℕ → ℕ) (c : ℤ)
    (rows : List ℕ) (hnd : rows.Nodup) (t : List (List ℤ)) (i : ℕ) (hi : i ∈ rows)
    (hlen : i < t.length) (hrow : colf i < (t.getD i []).length) (j : ℕ) :
    cell (rows.foldl
      (fun u r => if counts.getD r 0 = m0 then bump u r (colf r) c else u) t) i j =
      cell t i j + (if counts.getD i 0 = m0 ∧ j = colf i then c else 0) := by
  induction rows generalizing t with
  | nil => cases hi
  | cons r rs ih =>
    simp only [List.foldl_cons]
    rcases List.mem_cons.1 hi with rfl | hmem
    · have hnotin : i ∉ rs := (List.nodup_cons.1 hnd).1
      rw [cell_cfold_not_mem _ _ _ _ _ _ _ _ hnotin]
      by_cases hsel : counts.getD i 0 = m0
      · rw [if_pos hsel]
        by_cases hj : j = colf i
        · subst hj
          rw [cell_bump_self _ _ _ _ hlen hrow, if_pos ⟨hsel, rfl⟩]
        · rw [cell_bump_ne _ _ _ _ _ _ (Or.inr (fun hh => hj hh.symm)),
            if_neg (fun hh => hj hh.2), add_zero]
      · rw [if_neg hsel, if_neg (fun hh => hsel hh.1), add_zero]
    · have hir : r ≠ i := by rintro rfl; exact (List.nodup_cons.1 hnd).1 hmem
      by_cases hsel : counts.getD r 0 = m0
      · rw [if_pos hsel,
          ih (List.nodup_cons.1 hnd).2 _ hmem (by rw [bump_length]; exact hlen)
            (by rw [bump_row_length]; exact hrow),
          cell_bump_ne _ _ _ _ _ _ (Or.inl hir)]
      · rw [if_neg hsel, ih (List.nodup_cons.1 hnd).2 _ hmem hlen hrow]

theorem cell_cfold_mono (counts : List ℤ) (m0 : ℤ) (colf : ℕ → ℕ) (c : ℤ)
    (rows : List ℕ) (t : List (List ℤ)) (hc : 0 ≤ c) (i j : ℕ) :
    cell t i j ≤ cell (rows.foldl
      (fun u r => if counts.getD r 0 = m0 then bump u r (colf r) c else u) t) i j := by
  induction rows generalizing t with
  | nil => exact le_refl _
  | cons r rs ih =>
    simp only [List.foldl_cons]
    refine le_trans ?_ (ih _)
    by_cases h : counts.getD r 0 = m0
    · rw [if_pos h]; exact cell_bump_mono t r (colf r) c hc i j
    · rw [if_neg h]

@[simp] theorem add_width (H : α → ℕ → ℕ) (s : CountMinSketch) (item : α) (c : ℤ) :
    (s.add H item c).width = s.width := rfl

@[simp] theorem add_depth (H : α → ℕ → ℕ) (s : CountMinSketch) (item : α) (c : ℤ) :
    (s.add H item c).depth = s.depth := rfl

@[simp] theorem conservativeAdd_width (H : α → ℕ → ℕ) (s : CountMinSketch)
    (item : α) (c : ℤ) : (conservativeAdd H s item c).width = s.width := rfl

@[simp] theorem conservativeAdd_depth (H : α → ℕ → ℕ) (s : CountMinSketch)
    (item : α) (c : ℤ) : (conservativeAdd H s item c).depth = s.depth := rfl

@[simp] theorem col_add (H H' : α → ℕ → ℕ) (s : CountMinSketch) (it item : α)
    (c : ℤ) (i : ℕ) : col H (s.add H' it c) item i = col H s item i := rfl

@[simp] theorem col_conservativeAdd (H H' : α → ℕ → ℕ) (s : CountMinSketch)
    (it item : α) (c : ℤ) (i : ℕ) :
    col H (conservativeAdd H' s it c) item i = col H s item i := rfl

theorem add_table (H : α → ℕ → ℕ) (s : CountMinSketch) (item : α) (c : ℤ) :
    (s.add H item c).table =
      (List.range s.depth).foldl (fun t i => bump t i (col H s item i) c) s.table := rfl

theorem add_WF (H : α → ℕ → ℕ) (s : CountMinSketch) (item : α) (c : ℤ)
    (hwf : WF s) : WF (s.add H item c) := by
  obtain ⟨h1, h2, h3, h4⟩ := hwf
  refine ⟨?_, ?_, h3, h4⟩
  · show ((List.range s.depth).foldl _ s.table).length = s.depth
    rw [addfold_length]; exact h1
  · intro i hi
    show (((List.range s.depth).foldl _ s.table).getD i []).length = s.width
    rw [addfold_row_length]; exact h2 i hi

theorem conservativeAdd_WF (H : α → ℕ → ℕ) (s : CountMinSketch) (item : α)
    (c : ℤ) (hwf : WF s) : WF (conservativeAdd H s item c) := by
  obtain ⟨h1, h2, h3, h4⟩ := hwf
  refine ⟨?_, ?_, h3, h4⟩
  · show ((List.range s.depth).foldl _ s.table).length = s.depth
    rw [cfold_length]; exact h1
  · intro i hi
    show (((List.range s.depth).foldl _ s.table).getD i []).length = s.width
    rw [cfold_row_length]; exact h2 i hi

/-- The exact effect of a standard `add` on one cell of a touched row. -/
theorem add_cell (H : α → ℕ → ℕ) (s : CountMinSketch) (item : α) (c : ℤ)
    (hwf : WF s) (i : ℕ) (hi : i < s.depth) (j : ℕ) :
    cell (s.add H item c).table i j =
      cell s.table i j + (if j = col H s item i then c else 0) := by
  rw [add_table]
  exact cell_addfold_mem (fun i => col H s item i) c (List.range s.depth)
    (List.nodup_range _) s.table i (List.mem_range.2 hi) (hwf.1 ▸ hi)
    (by rw [hwf.2.1 i hi]; exact Nat.mod_lt _ hwf.2.2.1) j

end CountMinSketch

namespace CountMinSketch

variable {α : Type}

@[simp] theorem addSeq_nil (H : α → ℕ → ℕ) (s : CountMinSketch) :
    addSeq H s [] = s := rfl

@[simp] theorem addSeq_cons (H : α → ℕ → ℕ) (s : CountMinSketch) (op : α × ℤ)
    (ops : List (α × ℤ)) :
    addSeq H s (op :: ops) = addSeq H (s.add H op.1 op.2) ops := rfl

@[simp] theorem conservativeAddSeq_nil (H : α → ℕ → ℕ) (s : CountMinSketch) :
    conservativeAddSeq H s [] = s := rfl

@[simp] theorem conservativeAddSeq_cons (H : α → ℕ → ℕ) (s : CountMinSketch)
    (op : α × ℤ) (ops : List (α × ℤ)) :
    conservativeAddSeq H s (op :: ops) =
      conservativeAddSeq H (conservativeAdd H s op.1 op.2) ops := rfl

@[simp] theorem addSeq_width (H : α → ℕ → ℕ) (ops : List (α × ℤ)) :
    ∀ s : CountMinSketch, (addSeq H s ops).width = s.width := by
  induction ops with
  | nil => intro s; rfl
  | cons op ops ih => intro s; rw [addSeq_cons, ih]; rfl

@[simp] theorem addSeq_depth (H : α → ℕ → ℕ) (ops : List (α × ℤ)) :
    ∀ s : CountMinSketch, (addSeq H s ops).depth = s.depth := by
  induction ops with
  | nil => intro s; rfl
  | cons op ops ih => intro s; rw [addSeq_cons, ih]; rfl

@[simp] theorem conservativeAddSeq_width (H : α → ℕ → ℕ) (ops : List (α × ℤ)) :
    ∀ s : CountMinSketch, (conservativeAddSeq H s ops).width = s.width := by
  induction ops with
  | nil => intro s; rfl
  | cons op ops ih => intro s; rw [conservativeAddSeq_cons, ih]; rfl

@[simp] theorem conservativeAddSeq_depth (H : α → ℕ → ℕ) (ops : List (α × ℤ)) :
    ∀ s : CountMinSketch, (conservativeAddSeq H s ops).depth = s.depth := by
  induction ops with
  | nil => intro s; rfl
  | cons op ops ih => intro s; rw [conservativeAddSeq_cons, ih]; rfl

theorem countFor_cons [DecidableEq α] (x : α) (op : α × ℤ) (ops : List (α × ℤ)) :
    countFor x (op :: ops) = (if op.1 = x then op.2 else 0) + countFor x ops := by
  by_cases h : op.1 = x
  · simp [countFor, List.filter_cons, h]
  · simp [countFor, List.filter_cons, h]

theorem cell_zeroTable (d w i j : ℕ) : cell (zeroTable d w) i j = 0 := by
  unfold cell zeroTable
  by_cases hi : i < d <;> by_cases hj : j < w <;>
    simp [List.getD, List.getElem?_replicate, hi, hj]

theorem fresh_WF (eps del : ℚ) (w d : ℕ) (hw : 0 < w) (hd : 0 < d) :
    WF (fresh eps del w d) := by
  refine ⟨by simp [fresh, zeroTable], ?_, hw, hd⟩
  intro i hi
  simp only [fresh] at hi ⊢
  simp [zeroTable, List.getD, List.getElem?_replicate, hi]

theorem col_width_congr (H : α → ℕ → ℕ) {s' s : CountMinSketch}
    (h : s'.width = s.width) (x : α) (i : ℕ) : col H s' x i = col H s x i := by
  unfold col; rw [h]

/-- Row counters dominate the item's added mass after any standard `add`
sequence with non-negative counts. -/
theorem addSeq_cell_lower [DecidableEq α] (H : α → ℕ → ℕ) (ops : List (α × ℤ)) :
    ∀ s : CountMinSketch, WF s → (∀ op ∈ ops, 0 ≤ op.2) → ∀ (x : α) (i : ℕ),
      i < s.depth →
      cell s.table i (col H s x i) + countFor x ops ≤
        cell (addSeq H s ops).table i (col H s x i) := by
  induction ops with
  | nil => intro s _ _ x i _; simp [countFor]
  | cons op ops ih =>
    intro s hwf hpos x i hi
    have hwf' := add_WF H s op.1 op.2 hwf
    have hih := ih (s.add H op.1 op.2) hwf'
      (fun o ho => hpos o (List.mem_cons_of_mem _ ho)) x i hi
    rw [col_add] at hih
    have hstep := add_cell H s op.1 op.2 hwf i hi (col H s x i)
    rw [addSeq_cons, countFor_cons]
    refine le_trans ?_ hih
    rw [hstep]
    by_cases hox : op.1 = x
    · subst hox; rw [if_pos rfl, if_pos rfl]; linarith
    · rw [if_neg hox]
      by_cases hcol : col H s x i = col H s op.1 i
      · rw [if_pos hcol]
        have := hpos op (List.mem_cons_self _ _)
        linarith
      · rw [if_neg hcol]; linarith

theorem conservativeAdd_table (H : α → ℕ → ℕ) (s : CountMinSketch) (item : α)
    (c : ℤ) :
    (conservativeAdd H s item c).table =
      (List.range s.depth).foldl
        (fun t i =>
          if ((List.range s.depth).map
                (fun i => cell s.table i (col H s item i))).getD i 0 =
              ((List.range s.depth).map
                (fun i => cell s.table i (col H s item i))).min?.getD 0
          then bump t i (col H s item i) c else t)
        s.table := rfl

/-- One conservative unit update preserves every per-item lower bound and
raises the updated item's bound by one. -/
theorem conservativeAdd_cell_lower [DecidableEq α] (H : α → ℕ → ℕ)
    (s : CountMinSketch) (y : α) (hwf : WF s) (B : α → ℤ)
    (hB : ∀ z i, i < s.depth → B z ≤ cell s.table i (col H s z i))
    (x : α) (i : ℕ) (hi : i < s.depth) :
    B x + (if y = x then 1 else 0) ≤
      cell (conservativeAdd H s y 1).table i (col H s x i) := by
  by_cases hyx : y = x
  case neg =>
    rw [if_neg hyx, add_zero, conservativeAdd_table]
    exact le_trans (hB x i hi) (cell_cfold_mono _ _ _ _ _ _ (by norm_num) _ _)
  case pos =>
    subst hyx
    rw [if_pos rfl]
    set counts := (List.range s.depth).map (fun i => cell s.table i (col H s y i))
      with hcts
    have hne : counts ≠ [] := by
      have hlenc : counts.length = s.depth := by rw [hcts]; simp
      have hd := hwf.2.2.2
      intro hnil
      rw [hnil] at hlenc
      simp only [List.length_nil] at hlenc
      omega
    obtain ⟨v, hv, hvmem, hvle⟩ := min?_spec hne
    have hm0 : counts.min?.getD 0 = v := by rw [hv]; rfl
    obtain ⟨i₀, hi₀, hvi₀⟩ := List.mem_map.1 (by rw [hcts] at hvmem; exact hvmem)
    have hBv : B y ≤ v := by rw [← hvi₀]; exact hB y i₀ (List.mem_range.1 hi₀)
    have hcget : counts.getD i 0 = cell s.table i (col H s y i) := by
      rw [hcts]; exact getD_map_range _ hi 0
    rw [conservativeAdd_table]
    rw [show (List.range s.depth).map (fun i => cell s.table i (col H s y i)) =
      counts from hcts.symm]
    rw [cell_cfold_mem counts (counts.min?.getD 0) (fun i => col H s y i) 1
      (List.range s.depth) (List.nodup_range _) s.table i (List.mem_range.2 hi)
      (hwf.1 ▸ hi) (by rw [hwf.2.1 i hi]; exact Nat.mod_lt _ hwf.2.2.1)
      (col H s y i)]
    by_cases hsel : counts.getD i 0 = counts.min?.getD 0
    · rw [if_pos ⟨hsel, rfl⟩, ← hcget, hsel, hm0]
      linarith
    · rw [if_neg (fun hh => hsel hh.1), ← hcget]
      have hmemi : counts.getD i 0 ∈ counts := by
        rw [hcts, getD_map_range _ hi 0]
        exact List.mem_map.2 ⟨i, List.mem_range.2 hi, rfl⟩
      have hlow : v ≤ counts.getD i 0 := hvle _ hmemi
      have hneq : v ≠ counts.getD i 0 := fun hh => hsel (by rw [← hh, hm0])
      have : v + 1 ≤ counts.getD i 0 := lt_of_le_of_ne hlow hneq
      linarith

end CountMinSketch

namespace CountMinSketch

variable {α : Type}

/-- Per-item lower bounds propagate through a conservative unit-count
sequence, each item's bound growing by its added mass. -/
theorem conservativeAddSeq_cell_lower [DecidableEq α] (H : α → ℕ → ℕ)
    (ops : List (α × ℤ)) :
    ∀ s : CountMinSketch, WF s → (∀ op ∈ ops, op.2 = 1) → ∀ B : α → ℤ,
      (∀ z i, i < s.depth → B z ≤ cell s.table i (col H s z i)) →
      ∀ (x : α) (i : ℕ), i < s.depth →
      B x + countFor x ops ≤
        cell (conservativeAddSeq H s ops).table i (col H s x i) := by
  induction ops with
  | nil => intro s _ _ B hB x i hi; simpa [countFor] using hB x i hi
  | cons op ops ih =>
    intro s hwf hone B hB x i hi
    have hc : op.2 = 1 := hone op (List.mem_cons_self _ _)
    rw [conservativeAddSeq_cons, countFor_cons, hc]
    have hwf' := conservativeAdd_WF H s op.1 1 hwf
    have hB' : ∀ z i', i' < (conservativeAdd H s op.1 1).depth →
        B z + (if op.1 = z then 1 else 0) ≤
          cell (conservativeAdd H s op.1 1).table i'
            (col H (conservativeAdd H s op.1 1) z i') := by
      intro z i' hi'
      have h2 := conservativeAdd_cell_lower H s op.1 hwf B hB z i'
        (by simpa using hi')
      simpa using h2
    have hihs := ih (conservativeAdd H s op.1 1) hwf'
      (fun o ho => hone o (List.mem_cons_of_mem _ ho))
      (fun z => B z + (if op.1 = z then 1 else 0)) hB' x i (by simpa using hi)
    simp only [col_conservativeAdd] at hihs
    calc B x + ((if op.1 = x then 1 else 0) + countFor x ops)
        = (B x + (if op.1 = x then 1 else 0)) + countFor x ops := by ring
      _ ≤ _ := hihs

end CountMinSketch

/-- C1 (amended): over any hash function and any fresh sketch with positive
dimensions, the standard variant's `estimate(item)` dominates the sum of the
counts added for that item for every sequence of positive-count `add` calls;
the conservative variant guarantees the same when every call has count 1
(the original claim fails for the conservative variant with larger counts,
see the counterexample). -/
theorem cms_estimate_dominates_added {α : Type} [DecidableEq α] (H : α → ℕ → ℕ)
    (eps del : ℚ) (w d : ℕ) (hw : 0 < w) (hd : 0 < d) (ops : List (α × ℤ))
    (x : α) :
    ((∀ op ∈ ops, 1 ≤ op.2) →
      ∃ v, CountMinSketch.estimate H
          (CountMinSketch.addSeq H (CountMinSketch.fresh eps del w d) ops) x =
          some v ∧ CountMinSketch.countFor x ops ≤ v) ∧
    ((∀ op ∈ ops, op.2 = 1) →
      ∃ v, CountMinSketch.estimate H
          (CountMinSketch.conservativeAddSeq H (CountMinSketch.fresh eps del w d)
            ops) x = some v ∧ CountMinSketch.countFor x ops ≤ v) := by
  have hwf := CountMinSketch.fresh_WF eps del w d hw hd
  constructor
  · intro hpos
    have hdep : (CountMinSketch.addSeq H (CountMinSketch.fresh eps del w d)
        ops).depth = (CountMinSketch.fresh eps del w d).depth :=
      CountMinSketch.addSeq_depth ..
    have hwid : (CountMinSketch.addSeq H (CountMinSketch.fresh eps del w d)
        ops).width = (CountMinSketch.fresh eps del w d).width :=
      CountMinSketch.addSeq_width ..
    have hest : CountMinSketch.estimate H
        (CountMinSketch.addSeq H (CountMinSketch.fresh eps del w d) ops) x =
        ((List.range (CountMinSketch.fresh eps del w d).depth).map
          (fun i => CountMinSketch.cell
            (CountMinSketch.addSeq H (CountMinSketch.fresh eps del w d) ops).table
            i (CountMinSketch.col H (CountMinSketch.fresh eps del w d) x i))).min? := by
      unfold CountMinSketch.estimate
      rw [hdep]
      exact congrArg List.min? (List.map_congr_left
        (fun i _ => by rw [CountMinSketch.col_width_congr H hwid]))
    have hne : ((List.range (CountMinSketch.fresh eps del w d).depth).map
        (fun i => CountMinSketch.cell
          (CountMinSketch.addSeq H (CountMinSketch.fresh eps del w d) ops).table
          i (CountMinSketch.col H (CountMinSketch.fresh eps del w d) x i))) ≠ [] := by
      intro hnil
      have := congrArg List.length hnil
      simp only [List.length_map, List.length_range, List.length_nil] at this
      have : d = 0 := this
      omega
    obtain ⟨v, hv, hvmem, hvle⟩ := min?_spec hne
    refine ⟨v, by rw [hest]; exact hv, ?_⟩
    obtain ⟨i, hi, hfi⟩ := List.mem_map.1 hvmem
    have hi' := List.mem_range.1 hi
    have hlow := CountMinSketch.addSeq_cell_lower H ops
      (CountMinSketch.fresh eps del w d) hwf
      (fun op ho => le_trans zero_le_one (hpos op ho)) x i hi'
    have h0 : CountMinSketch.cell (CountMinSketch.fresh eps del w d).table i
        (CountMinSketch.col H (CountMinSketch.fresh eps del w d) x i) = 0 :=
      CountMinSketch.cell_zeroTable ..
    rw [← hfi]
    linarith
  · intro hone
    have hdep : (CountMinSketch.conservativeAddSeq H
        (CountMinSketch.fresh eps del w d) ops).depth =
        (CountMinSketch.fresh eps del w d).depth :=
      CountMinSketch.conservativeAddSeq_depth ..
    have hwid : (CountMinSketch.conservativeAddSeq H
        (CountMinSketch.fresh eps del w d) ops).width =
        (CountMinSketch.fresh eps del w d).width :=
      CountMinSketch.conservativeAddSeq_width ..
    have hest : CountMinSketch.estimate H
        (CountMinSketch.conservativeAddSeq H (CountMinSketch.fresh eps del w d)
          ops) x =
        ((List.range (CountMinSketch.fresh eps del w d).depth).map
          (fun i => CountMinSketch.cell
            (CountMinSketch.conservativeAddSeq H
              (CountMinSketch.fresh eps del w d) ops).table
            i (CountMinSketch.col H (CountMinSketch.fresh eps del w d) x i))).min? := by
      unfold CountMinSketch.estimate
      rw [hdep]
      exact congrArg List.min? (List.map_congr_left
        (fun i _ => by rw [CountMinSketch.col_width_congr H hwid]))
    have hne : ((List.range (CountMinSketch.fresh eps del w d).depth).map
        (fun i => CountMinSketch.cell
          (CountMinSketch.conservativeAddSeq H (CountMinSketch.fresh eps del w d)
            ops).table
          i (CountMinSketch.col H (CountMinSketch.fresh eps del w d) x i))) ≠ [] := by
      intro hnil
      have := congrArg List.length hnil
      simp only [List.length_map, List.length_range, List.length_nil] at this
      have : d = 0 := this
      omega
    obtain ⟨v, hv, hvmem, hvle⟩ := min?_spec hne
    refine ⟨v, by rw [hest]; exact hv, ?_⟩
    obtain ⟨i, hi, hfi⟩ := List.mem_map.1 hvmem
    have hi' := List.mem_range.1 hi
    have hlow := CountMinSketch.conservativeAddSeq_cell_lower H ops
      (CountMinSketch.fresh eps del w d) hwf hone (fun _ => 0)
      (fun z i hiz => le_of_eq (CountMinSketch.cell_zeroTable ..).symm) x i hi'
    simp only [zero_add] at hlow
    rw [← hfi]
    linarith

/-- Closed witness for `cms_estimate_dominates_added`: one positive-count
`add` on a concrete 2-by-2 sketch. -/
theorem cms_estimate_dominates_added_witness :
    ∃ v, CountMinSketch.estimate (fun a s => a + s)
        (CountMinSketch.addSeq (fun a s => a + s) (CountMinSketch.fresh 0 0 2 2)
          [((0 : ℕ), 2)]) 0 = some v ∧
      CountMinSketch.countFor 0 [((0 : ℕ), 2)] ≤ v :=
  (cms_estimate_dominates_added (fun a s => a + s) 0 0 2 2 (by decide) (by decide)
    [((0 : ℕ), 2)] 0).1 (by decide)

/-- C1 counterexample: with the conservative variant and positive counts
larger than 1, `estimate` can fall below the added mass.  Here item 0 collides
with item 1 in row 0 only; after `add(0, 3)` then `add(1, 5)` the conservative
rule leaves row 0's counter at 3, so `estimate(1) = 3 < 5`. -/
theorem cms_conservative_underestimates :
    (∀ op ∈ [((0 : ℕ), (3 : ℤ)), (1, 5)], 1 ≤ op.2) ∧
      CountMinSketch.estimate (fun item seed => if seed = 0 then 0 else item)
        (CountMinSketch.conservativeAddSeq
          (fun item seed => if seed = 0 then 0 else item)
          (CountMinSketch.fresh 0 0 2 2) [((0 : ℕ), 3), (1, 5)]) 1 = some 3 ∧
      CountMinSketch.countFor 1 [((0 : ℕ), (3 : ℤ)), (1, 5)] = 5 ∧
      ¬(5 : ℤ) ≤ 3 :=
  ⟨by decide, by decide, by decide, by decide⟩

/-- C4 counterexample: `add` accepts negative counts without validation, and a
negative count shrinks a counter — on a fresh 1-by-1 sketch, `add(item, -1)`
takes the single counter from 0 to -1. -/
theorem cms_add_negative_count_decreases :
    CountMinSketch.cell ((CountMinSketch.fresh 0 0 1 1).add (fun _ _ => 0)
        (0 : ℕ) (-1)).table 0 0 <
      CountMinSketch.cell (CountMinSketch.fresh 0 0 1 1).table 0 0 := by decide

/-- C4 (amended): every table counter is monotonically non-decreasing under
`add` with a non-negative count, for both the standard and the conservative
update rule (the original claim fails for the negative counts `add` also
accepts, see the counterexample). -/
theorem cms_add_monotone {α : Type} (H : α → ℕ → ℕ) (s : CountMinSketch)
    (item : α) (count : ℤ) (hc : 0 ≤ count) (i j : ℕ) :
    CountMinSketch.cell s.table i j ≤
        CountMinSketch.cell (s.add H item count).table i j ∧
      CountMinSketch.cell s.table i j ≤
        CountMinSketch.cell (CountMinSketch.conservativeAdd H s item count).table
          i j := by
  constructor
  · rw [CountMinSketch.add_table]
    exact CountMinSketch.cell_addfold_mono _ _ _ _ hc i j
  · rw [CountMinSketch.conservativeAdd_table]
    exact CountMinSketch.cell_cfold_mono _ _ _ _ _ _ hc i j

/-- Closed witness for `cms_add_monotone` on a concrete sketch and count. -/
theorem cms_add_monotone_witness :
    CountMinSketch.cell (CountMinSketch.fresh 0 0 1 1).table 0 0 ≤
      CountMinSketch.cell ((CountMinSketch.fresh 0 0 1 1).add (fun _ _ => 0)
        (0 : ℕ) 2).table 0 0 :=
  (cms_add_monotone (fun _ _ => 0) (CountMinSketch.fresh 0 0 1 1) (0 : ℕ) 2
    (by decide) 0 0).1

/-! ## Merge lemmas -/

namespace CountMinSketch

theorem cms_ext_fields {a b : CountMinSketch} (h1 : a.epsilon = b.epsilon)
    (h2 : a.delta = b.delta) (h3 : a.width = b.width) (h4 : a.depth = b.depth)
    (h5 : a.table = b.table) (h6 : a.total_count = b.total_count) : a = b := by
  cases a; cases b
  simp only [mk.injEq]
  exact ⟨h1, h2, h3, h4, h5, h6⟩

theorem mergedState_table (s o : CountMinSketch) :
    (mergedState s o).table = (List.range s.depth).map
      (fun i => (List.range s.width).map
        (fun j => cell s.table i j + cell o.table i j)) := rfl

theorem mergedState_width (s o : CountMinSketch) :
    (mergedState s o).width = s.width := rfl

theorem mergedState_depth (s o : CountMinSketch) :
    (mergedState s o).depth = s.depth := rfl

theorem mergedState_total (s o : CountMinSketch) :
    (mergedState s o).total_count = s.total_count + o.total_count := rfl

theorem cell_mergedState (s o : CountMinSketch) (i j : ℕ) (hi : i < s.depth)
    (hj : j < s.width) :
    cell (mergedState s o).table i j = cell s.table i j + cell o.table i j := by
  rw [mergedState_table, cell, getD_map_range _ hi, getD_map_range _ hj]

end CountMinSketch

namespace HyperLogLog

theorem hll_ext_fields {a b : HyperLogLog} (h1 : a.precision = b.precision)
    (h2 : a.m = b.m) (h3 : a.registers = b.registers) (h4 : a.alpha = b.alpha) :
    a = b := by
  cases a; cases b
  simp only [mk.injEq]
  exact ⟨h1, h2, h3, h4⟩

theorem mergedState_registers (s o : HyperLogLog) :
    (mergedState s o).registers = (List.range s.m).map
      (fun i => max (s.registers.getD i 0) (o.registers.getD i 0)) := rfl

theorem mergedState_m (s o : HyperLogLog) : (mergedState s o).m = s.m := rfl

theorem getD_mergedState (s o : HyperLogLog) (i : ℕ) (hi : i < s.m) :
    (mergedState s o).registers.getD i 0 =
      max (s.registers.getD i 0) (o.registers.getD i 0) := by
  rw [mergedState_registers, getD_map_range _ hi]

end HyperLogLog

/-- C6: for both `CountMinSketch.merge` and `HyperLogLog.merge`, the call
raises the mismatch `ValueError` exactly when the shapes differ (width or
depth, resp. precision), and a failed call leaves the receiver's entire state
unchanged — the check precedes every counter/register write. -/
theorem merge_mismatch_iff_receiver_unchanged (s o : CountMinSketch)
    (x y : HyperLogLog) :
    (s.merge o = .error .valueError ↔ s.width ≠ o.width ∨ s.depth ≠ o.depth) ∧
      ((s.width ≠ o.width ∨ s.depth ≠ o.depth) → s.mergePost o = s) ∧
      (x.merge y = .error .valueError ↔ x.precision ≠ y.precision) ∧
      (x.precision ≠ y.precision → x.mergePost y = x) := by
  refine ⟨?_, ?_, ?_, ?_⟩
  · unfold CountMinSketch.merge
    by_cases h : s.width ≠ o.width ∨ s.depth ≠ o.depth
    · rw [if_pos h]; simpa using h
    · rw [if_neg h]; simpa using h
  · intro h
    unfold CountMinSketch.mergePost CountMinSketch.merge
    rw [if_pos h]
  · unfold HyperLogLog.merge
    by_cases h : x.precision ≠ y.precision
    · rw [if_pos h]; simpa using h
    · rw [if_neg h]; simpa using h
  · intro h
    unfold HyperLogLog.mergePost HyperLogLog.merge
    rw [if_pos h]

/-- Closed witness for `merge_mismatch_iff_receiver_unchanged`: a width
mismatch and a precision mismatch both leave the receivers untouched. -/
theorem merge_mismatch_iff_receiver_unchanged_witness :
    (CountMinSketch.fresh 0 0 1 1).mergePost (CountMinSketch.fresh 0 0 2 1) =
        CountMinSketch.fresh 0 0 1 1 ∧
      (⟨4, 16, List.replicate 16 0, 0⟩ : HyperLogLog).mergePost
          ⟨5, 32, List.replicate 32 0, 0⟩ =
        ⟨4, 16, List.replicate 16 0, 0⟩ :=
  ⟨(merge_mismatch_iff_receiver_unchanged (CountMinSketch.fresh 0 0 1 1)
      (CountMinSketch.fresh 0 0 2 1) ⟨4, 16, List.replicate 16 0, 0⟩
      ⟨5, 32, List.replicate 32 0, 0⟩).2.1 (by decide),
    (merge_mismatch_iff_receiver_unchanged (CountMinSketch.fresh 0 0 1 1)
      (CountMinSketch.fresh 0 0 2 1) ⟨4, 16, List.replicate 16 0, 0⟩
      ⟨5, 32, List.replicate 32 0, 0⟩).2.2.2 (by decide)⟩

/-- C7: on identically shaped operands the standard Count-Min merge succeeds
and is commutative on the resulting table and total count and associative on
the whole state; likewise the HyperLogLog merge succeeds and is commutative
on the resulting registers and associative on the whole state. -/
theorem merge_comm_assoc (A B C : CountMinSketch) (X Y Z : HyperLogLog)
    (hw1 : A.width = B.width) (hd1 : A.depth = B.depth)
    (hw2 : B.width = C.width) (hd2 : B.depth = C.depth)
    (hp1 : X.precision = Y.precision) (hp2 : Y.precision = Z.precision)
    (hm1 : X.m = Y.m) (hm2 : Y.m = Z.m) :
    A.merge B = .ok (A.mergedState B) ∧
      (A.mergedState B).table = (B.mergedState A).table ∧
      (A.mergedState B).total_count = (B.mergedState A).total_count ∧
      (A.mergedState B).mergedState C = A.mergedState (B.mergedState C) ∧
      X.merge Y = .ok (X.mergedState Y) ∧
      (X.mergedState Y).registers = (Y.mergedState X).registers ∧
      (X.mergedState Y).mergedState Z = X.mergedState (Y.mergedState Z) := by
  refine ⟨?_, ?_, ?_, ?_, ?_, ?_, ?_⟩
  · unfold CountMinSketch.merge
    rw [if_neg (by simp [hw1, hd1])]
  · rw [CountMinSketch.mergedState_table, CountMinSketch.mergedState_table, ← hd1,
      ← hw1]
    exact List.map_congr_left (fun i _ =>
      List.map_congr_left (fun j _ => add_comm ..))
  · rw [CountMinSketch.mergedState_total, CountMinSketch.mergedState_total]
    exact add_comm ..
  · refine CountMinSketch.cms_ext_fields rfl rfl rfl rfl ?_ ?_
    · rw [CountMinSketch.mergedState_table (A.mergedState B) C,
        CountMinSketch.mergedState_table A (B.mergedState C),
        CountMinSketch.mergedState_depth, CountMinSketch.mergedState_width]
      refine List.map_congr_left (fun i hi => List.map_congr_left (fun j hj => ?_))
      have hiA := List.mem_range.1 hi
      have hjA := List.mem_range.1 hj
      rw [CountMinSketch.cell_mergedState A B i j hiA hjA,
        CountMinSketch.cell_mergedState B C i j (hd1 ▸ hiA) (hw1 ▸ hjA), add_assoc]
    · rw [CountMinSketch.mergedState_total, CountMinSketch.mergedState_total,
        CountMinSketch.mergedState_total, CountMinSketch.mergedState_total,
        add_assoc]
  · unfold HyperLogLog.merge
    rw [if_neg (by simp [hp1])]
  · rw [HyperLogLog.mergedState_registers, HyperLogLog.mergedState_registers,
      ← hm1]
    exact List.map_congr_left (fun i _ => max_comm ..)
  · refine HyperLogLog.hll_ext_fields rfl rfl ?_ rfl
    rw [HyperLogLog.mergedState_registers (X.mergedState Y) Z,
      HyperLogLog.mergedState_registers X (Y.mergedState Z),
      HyperLogLog.mergedState_m]
    refine List.map_congr_left (fun i hi => ?_)
    have hiX := List.mem_range.1 hi
    rw [HyperLogLog.getD_mergedState X Y i hiX,
      HyperLogLog.getD_mergedState Y Z i (hm1 ▸ hiX), max_assoc]

/-- Closed witness for `merge_comm_assoc` on concrete sketches and counters. -/
theorem merge_comm_assoc_witness :
    ((CountMinSketch.fresh 0 0 2 1).mergedState
        ⟨0, 0, 2, 1, [[3, 1]], 4⟩).table =
      ((⟨0, 0, 2, 1, [[3, 1]], 4⟩ : CountMinSketch).mergedState
        (CountMinSketch.fresh 0 0 2 1)).table ∧
      ((⟨4, 16, List.replicate 16 1, 0⟩ : HyperLogLog).mergedState
          ⟨4, 16, List.replicate 16 2, 0⟩).registers =
        ((⟨4, 16, List.replicate 16 2, 0⟩ : HyperLogLog).mergedState
          ⟨4, 16, List.replicate 16 1, 0⟩).registers :=
  ⟨(merge_comm_assoc (CountMinSketch.fresh 0 0 2 1) ⟨0, 0, 2, 1, [[3, 1]], 4⟩
      (CountMinSketch.fresh 0 0 2 1) ⟨4, 16, List.replicate 16 1, 0⟩
      ⟨4, 16, List.replicate 16 2, 0⟩ ⟨4, 16, List.replicate 16 0, 0⟩
      rfl rfl rfl rfl rfl rfl rfl rfl).2.1,
    (merge_comm_assoc (CountMinSketch.fresh 0 0 2 1) ⟨0, 0, 2, 1, [[3, 1]], 4⟩
      (CountMinSketch.fresh 0 0 2 1) ⟨4, 16, List.replicate 16 1, 0⟩
      ⟨4, 16, List.replicate 16 2, 0⟩ ⟨4, 16, List.replicate 16 0, 0⟩
      rfl rfl rfl rfl rfl rfl rfl rfl).2.2.2.2.2.1⟩

/-- C5: `count()` evaluates exactly one of three mutually exclusive regimes in
the stated order: linear counting when the raw estimate
`E = alpha * m^2 / sum(2^-register[j])` satisfies `E ≤ 2.5 * m` and some
register is zero; the raw estimate unmodified when otherwise `E ≤ (1/30)*2^32`;
the large-range correction otherwise.  (`CountResult.linear m z` stands for
`m * ln(m / z)` and `CountResult.large E` for `-2^32 * ln(1 - E / 2^32)`.) -/
theorem hll_count_regimes (h : HyperLogLog) :
    ((h.rawEstimate ≤ 5 / 2 * (h.m : ℚ) ∧ h.registers.count 0 ≠ 0) →
        h.count = .linear h.m (h.registers.count 0)) ∧
      (¬(h.rawEstimate ≤ 5 / 2 * (h.m : ℚ) ∧ h.registers.count 0 ≠ 0) →
        h.rawEstimate ≤ 1 / 30 * 2 ^ 32 → h.count = .raw h.rawEstimate) ∧
      (¬(h.rawEstimate ≤ 5 / 2 * (h.m : ℚ) ∧ h.registers.count 0 ≠ 0) →
        ¬(h.rawEstimate ≤ 1 / 30 * 2 ^ 32) → h.count = .large h.rawEstimate) ∧
      (((h.rawEstimate ≤ 5 / 2 * (h.m : ℚ) ∧ h.registers.count 0 ≠ 0) ∧
          ¬(¬(h.rawEstimate ≤ 5 / 2 * (h.m : ℚ) ∧ h.registers.count 0 ≠ 0) ∧
            h.rawEstimate ≤ 1 / 30 * 2 ^ 32) ∧
          ¬(¬(h.rawEstimate ≤ 5 / 2 * (h.m : ℚ) ∧ h.registers.count 0 ≠ 0) ∧
            ¬(h.rawEstimate ≤ 1 / 30 * 2 ^ 32))) ∨
        (¬(h.rawEstimate ≤ 5 / 2 * (h.m : ℚ) ∧ h.registers.count 0 ≠ 0) ∧
          h.rawEstimate ≤ 1 / 30 * 2 ^ 32 ∧
          ¬¬(h.rawEstimate ≤ 1 / 30 * 2 ^ 32)) ∨
        (¬(h.rawEstimate ≤ 5 / 2 * (h.m : ℚ) ∧ h.registers.count 0 ≠ 0) ∧
          ¬(h.rawEstimate ≤ 1 / 30 * 2 ^ 32) ∧
          ¬(h.rawEstimate ≤ 1 / 30 * 2 ^ 32 ∧
            ¬(h.rawEstimate ≤ 1 / 30 * 2 ^ 32)))) := by
  refine ⟨?_, ?_, ?_, ?_⟩
  · rintro ⟨h1, h2⟩
    simp only [HyperLogLog.count]
    rw [if_pos h1, if_pos h2]
  · intro hno hle
    simp only [HyperLogLog.count]
    by_cases hA : h.rawEstimate ≤ 5 / 2 * (h.m : ℚ)
    · have hB : ¬ h.registers.count 0 ≠ 0 := fun hB => hno ⟨hA, hB⟩
      rw [if_pos hA, if_neg hB, if_pos hle]
    · rw [if_neg hA, if_pos hle]
  · intro hno hgt
    simp only [HyperLogLog.count]
    by_cases hA : h.rawEstimate ≤ 5 / 2 * (h.m : ℚ)
    · have hB : ¬ h.registers.count 0 ≠ 0 := fun hB => hno ⟨hA, hB⟩
      rw [if_pos hA, if_neg hB, if_neg hgt]
    · rw [if_neg hA, if_neg hgt]
  · tauto

/-- Closed witness for `hll_count_regimes`: the fresh precision-4 state (all
16 registers zero) satisfies the small-range regime, so `count()` takes the
linear-counting branch. -/
theorem hll_count_regimes_witness :
    (⟨4, 16, List.replicate 16 0, 673 / 1000⟩ : HyperLogLog).count =
      .linear 16 16 :=
  (hll_count_regimes ⟨4, 16, List.replicate 16 0, 673 / 1000⟩).1
    ⟨by
      have hsum : ((List.replicate 16 (0 : ℕ)).map
          (fun (x : ℕ) => (2 : ℚ) ^ (-(x : ℤ)))).sum = 16 := by
        rw [List.map_replicate, List.sum_replicate]
        norm_num
      simp only [HyperLogLog.rawEstimate]
      rw [hsum]
      norm_num,
      by decide⟩

/-! ## Constructor lemmas -/

theorem except_bind_ok {ε β γ : Type} (a : β) (f : β → Except ε γ) :
    (Except.ok a : Except ε β) >>= f = f a := rfl

theorem except_bind_error {ε β γ : Type} (e : ε) (f : β → Except ε γ) :
    (Except.error e : Except ε β) >>= f = Except.error e := rfl

theorem pyDiv_cases (a b : ℚ) :
    pyDiv a b = .ok (a / b) ∨ pyDiv a b = .error .zeroDivisionError := by
  unfold pyDiv
  by_cases h : b = 0
  · right; rw [if_pos h]
  · left; rw [if_neg h]

namespace BloomFilter

theorem optimal_size_cases (log : ℚ → ℚ) (n : ℤ) (p : ℚ) :
    (∃ v, optimal_size log n p = .ok v) ∨
      optimal_size log n p = .error .zeroDivisionError := by
  unfold optimal_size
  rcases pyDiv_cases (-(n * log p)) (log 2 ^ 2) with h | h <;> rw [h]
  · exact Or.inl ⟨_, rfl⟩
  · exact Or.inr rfl

theorem optimal_hash_count_cases (log : ℚ → ℚ) (m n : ℤ) :
    (∃ v, optimal_hash_count log m n = .ok v) ∨
      optimal_hash_count log m n = .error .zeroDivisionError := by
  unfold optimal_hash_count
  rcases pyDiv_cases (m : ℚ) (n : ℚ) with h | h <;> rw [h]
  · exact Or.inl ⟨_, rfl⟩
  · exact Or.inr rfl

theorem init_in_range_not_valueError (log : ℚ → ℚ) (n : ℤ) (p : ℚ)
    (hin : 0 < p ∧ p < 1) : init log n p ≠ .error .valueError := by
  unfold init
  rw [if_neg (not_not_intro hin)]
  rcases optimal_size_cases log n p with ⟨m, hm⟩ | hm <;> rw [hm]
  · rw [except_bind_ok]
    rcases optimal_hash_count_cases log m n with ⟨k, hk⟩ | hk <;> rw [hk]
    · rw [except_bind_ok]; simp
    · rw [except_bind_error]; simp
  · rw [except_bind_error]; simp

end BloomFilter

/-- C8: each constructor raises the parameter-validation `ValueError` exactly
when its statistical input is out of range: the Bloom filter iff the false
positive rate is outside `(0,1)`, the sketch iff `epsilon` or `delta` is
outside `(0,1)`, the HyperLogLog iff the precision is outside `[4,16]`.
In-range inputs never produce a `ValueError` (though the Bloom filter may
still raise `ZeroDivisionError` from its derivations — see the
zero-expected-items theorem). -/
theorem init_validation_iff (log : ℚ → ℚ) (e : ℚ) (n : ℤ) (p : ℚ)
    (eps del : ℚ) (prec : ℤ) :
    (BloomFilter.init log n p = .error .valueError ↔ ¬(0 < p ∧ p < 1)) ∧
      (CountMinSketch.init log e eps del = .error .valueError ↔
        (¬(0 < eps ∧ eps < 1) ∨ ¬(0 < del ∧ del < 1))) ∧
      (HyperLogLog.init prec = .error .valueError ↔
        ¬(4 ≤ prec ∧ prec ≤ 16)) := by
  refine ⟨?_, ?_, ?_⟩
  · constructor
    · intro h
      by_contra hin
      exact BloomFilter.init_in_range_not_valueError log n p hin h
    · intro hout
      unfold BloomFilter.init
      rw [if_pos hout]
  · by_cases h1 : 0 < eps ∧ eps < 1 <;> by_cases h2 : 0 < del ∧ del < 1 <;>
      simp [CountMinSketch.init, h1, h2]
  · by_cases h : 4 ≤ prec ∧ prec ≤ 16 <;> simp [HyperLogLog.init, h]

/-- Closed witness for `init_validation_iff`: an out-of-range rate is
rejected and an in-range precision is accepted. -/
theorem init_validation_iff_witness :
    BloomFilter.init (fun _ => 1) 10 2 = .error .valueError ∧
      HyperLogLog.init 4 ≠ .error .valueError :=
  ⟨(init_validation_iff (fun _ => 1) 1 10 2 1 1 4).1.2 (by norm_num),
    fun h => ((init_validation_iff (fun _ => 1) 1 10 2 1 1 4).2.2.1 h)
      (by norm_num)⟩

/-- C10: constructing a Bloom filter with `expected_items = 0` and any valid
false-positive rate raises `ZeroDivisionError` from the `m / n` hash-count
derivation, not the parameter-validation `ValueError`: `expected_items` is
never validated. -/
theorem bloom_init_zero_items_div_error (log : ℚ → ℚ) (p : ℚ) (h0 : 0 < p)
    (h1 : p < 1) (hlog : log 2 ^ 2 ≠ 0) :
    BloomFilter.init log 0 p = .error .zeroDivisionError ∧
      BloomFilter.init log 0 p ≠ .error .valueError := by
  have hsize : BloomFilter.optimal_size log 0 p = .ok 0 := by
    unfold BloomFilter.optimal_size pyDiv
    rw [if_neg hlog, except_bind_ok]
    norm_num
  have hhash : BloomFilter.optimal_hash_count log 0 0 =
      .error .zeroDivisionError := by
    unfold BloomFilter.optimal_hash_count pyDiv
    rw [if_pos (by norm_num), except_bind_error]
  have hmain : BloomFilter.init log 0 p = .error .zeroDivisionError := by
    unfold BloomFilter.init
    rw [if_neg (not_not_intro ⟨h0, h1⟩), hsize, except_bind_ok, hhash,
      except_bind_error]
  exact ⟨hmain, by rw [hmain]; simp⟩

/-- Closed witness for `bloom_init_zero_items_div_error` at a concrete
abstracted logarithm and rate. -/
theorem bloom_init_zero_items_div_error_witness :
    BloomFilter.init (fun _ => 1) 0 (1 / 2) = .error .zeroDivisionError :=
  (bloom_init_zero_items_div_error (fun _ => 1) (1 / 2) (by norm_num)
    (by norm_num) (by norm_num)).1
